import Mathlib

/-!
Shallow embedding of the grid container in `map-parse/src/lib.rs` from the
`advent_of_code_2024` repository, together with proofs about its public
contract.

The Rust `Map<T>` stores `rows : usize`, `cols : usize` and
`values : HashMap<IVec2, T>`.  Here the hash map is modelled as an
association list in which `insert` removes any previous binding of the key
(`HashMap::insert` replaces the old value); `usize` becomes `Nat` and the
32-bit signed `IVec2` components become `Int` (the `usize as i32` casts
performed during parsing are modelled as exact, which they are for every
grid with fewer than 2^31 rows and columns).  The nom combinators
`line_ending`, `many1` and `separated_list1` used by `Map::parse` are
modelled over `List Char`, with fuel standing in for nom's guarantee that
the remaining input is always a suffix of the original; the fuel supplied
by `mapParse` is large enough that it is never exhausted for any cell rule
that, like every rule expressible against `&str` slices, does not enlarge
its input.  The `assert_eq!` in `Map::parse` (ragged rows) aborts the
process; that outcome is modelled by the distinguished result
`ParseResult.assertFail`, kept separate from a nom parse error
`ParseResult.err`.
-/

/-- 2D integer vector, modelling `glam::IVec2` (two signed 32-bit
components, embedded as unbounded integers). -/
structure IVec2 where
  x : Int
  y : Int
deriving DecidableEq, Repr

/-- Lookup in the association-list model of `HashMap<IVec2, T>`:
the value bound to `k`, if any.  Models `HashMap::get`. -/
def mapGet {T : Type} (k : IVec2) : List (IVec2 × T) → Option T
  | [] => none
  | q :: qs => if q.1 = k then some q.2 else mapGet k qs

/-- Remove every binding of key `k` (helper for `mapInsert`). -/
def mapErase {T : Type} (k : IVec2) : List (IVec2 × T) → List (IVec2 × T)
  | [] => []
  | q :: qs => if q.1 = k then mapErase k qs else q :: mapErase k qs

/-- Insert in the association-list model of `HashMap<IVec2, T>`:
`HashMap::insert` replaces any existing binding of the key. -/
def mapInsert {T : Type} (m : List (IVec2 × T)) (k : IVec2) (v : T) :
    List (IVec2 × T) :=
  (k, v) :: mapErase k m

/-- Overwrite the value bound to `k` in place, leaving the key set
untouched.  Models writing through the `&mut T` reference returned by
`HashMap::get_mut` (which can change the stored value but never the set of
keys). -/
def mapWrite {T : Type} (k : IVec2) (v : T) :
    List (IVec2 × T) → List (IVec2 × T)
  | [] => []
  | q :: qs => if q.1 = k then (k, v) :: mapWrite k v qs else q :: mapWrite k v qs

/-- The grid of `map-parse/src/lib.rs`:
`rows`/`cols` are the fixed dimensions, `values` the position-indexed
cell storage. -/
structure Map (T : Type) where
  rows : Nat
  cols : Nat
  values : List (IVec2 × T)
deriving Repr, DecidableEq

/-- `Default for Map<T>`: zero dimensions, empty value mapping. -/
def Map.defaultMap (T : Type) : Map T := ⟨0, 0, []⟩

/-- `Map::is_inside`: `pos.x >= 0 && (pos.x as usize) < self.cols &&
pos.y >= 0 && (pos.y as usize) < self.rows`.  The `as usize` casts are
guarded by the sign checks (Rust `&&` short-circuits), modelled by
`Int.toNat`. -/
def Map.is_inside {T : Type} (m : Map T) (pos : IVec2) : Bool :=
  decide (0 ≤ pos.x) && decide (pos.x.toNat < m.cols) &&
    decide (0 ≤ pos.y) && decide (pos.y.toNat < m.rows)

/-- `Map::row_count`. -/
def Map.row_count {T : Type} (m : Map T) : Nat := m.rows

/-- `Map::col_count`. -/
def Map.col_count {T : Type} (m : Map T) : Nat := m.cols

/-- `Map::get`: `self.values.get(pos)`. -/
def Map.get {T : Type} (m : Map T) (pos : IVec2) : Option T :=
  mapGet pos m.values

/-- The observable effect of `Map::get_mut` followed by a write through
the returned reference: when `get_mut(pos)` is `Some`, the stored value is
replaced by `v`; when it is `None`, there is no reference to write through
and the map is unchanged. -/
def Map.writeCell {T : Type} (m : Map T) (pos : IVec2) (v : T) : Map T :=
  match mapGet pos m.values with
  | none => m
  | some _ => ⟨m.rows, m.cols, mapWrite pos v m.values⟩

/-- Modelled from the spec: `values_iter()` is used by many day-solutions
but its definition is not part of the `map-parse` source here; the spec
describes it as a finite, restartable sequence of `(position, value)`
pairs backed by the unordered value mapping.  Modelled as the value
mapping's list of pairs. -/
def Map.values_iter {T : Type} (m : Map T) : List (IVec2 × T) := m.values

-- The nom-based parser of `Map::parse`

/-- A cell rule, modelling a `Parseable` implementation: from the remaining
input it either fails or yields one value plus the rest of the input. -/
def Cell (T : Type) : Type := List Char → Option (T × List Char)

/-- nom `line_ending`: consumes `"\n"` or `"\r\n"`, returning the rest. -/
def lineEnding : List Char → Option (List Char)
  | '\n' :: rest => some rest
  | '\r' :: '\n' :: rest => some rest
  | _ => none

/-- The loop of nom `many1` after its first element: keep applying the
cell rule, stopping (with success) at its first failure, and turning a
success that consumed nothing into an error, as nom does to avoid an
infinite loop.  `fuel` makes the recursion structural: `mapParse` passes
one more than the input length, which is never exhausted for a cell rule
that does not enlarge its input (every rule over Rust string slices). -/
def many1Loop {T : Type} (cell : Cell T) :
    Nat → List Char → List T → Option (List T × List Char)
  | 0, _, _ => none
  | fuel + 1, s, acc =>
    match cell s with
    | none => some (acc.reverse, s)
    | some (v, rest) =>
      if rest.length = s.length then none
      else many1Loop cell fuel rest (v :: acc)

/-- nom `many1`: the cell rule must succeed at least once (the first
application has no consumption check in nom), then `many1Loop`. -/
def many1 {T : Type} (cell : Cell T) (s : List Char) :
    Option (List T × List Char) :=
  match cell s with
  | none => none
  | some (v, rest) => many1Loop cell (rest.length + 1) rest [v]

/-- The loop of nom `separated_list1 (line_ending, many1 cell)` after its
first row: try the separator (backtracking on failure), error if it
consumed nothing, then try `many1 cell` (backtracking to before the
separator on failure). -/
def sepLinesLoop {T : Type} (cell : Cell T) :
    Nat → List Char → List (List T) → Option (List (List T) × List Char)
  | 0, _, _ => none
  | fuel + 1, i, acc =>
    match lineEnding i with
    | none => some (acc.reverse, i)
    | some i1 =>
      if i1.length = i.length then none
      else
        match many1 cell i1 with
        | none => some (acc.reverse, i)
        | some (row, i2) => sepLinesLoop cell fuel i2 (row :: acc)

/-- nom `separated_list1 (line_ending, many1 cell)`: at least one row,
then `sepLinesLoop`. -/
def sepLines {T : Type} (cell : Cell T) (i : List Char) :
    Option (List (List T) × List Char) :=
  match many1 cell i with
  | none => none
  | some (row, i1) => sepLinesLoop cell (i1.length + 1) i1 [row]

/-- Rust `usize as i32`: keep the low 32 bits and reinterpret them as a
signed two's-complement value (the cast truncates, it never panics). -/
def wrap32 (n : Nat) : Int :=
  (((n + 2147483648) % 4294967296 : Nat) : Int) - 2147483648

/-- The body of the `for (x, value) in v` loop inside the fold of
`Map::parse`: insert each of the row's values at
`IVec2::new(x as i32, y as i32)` for consecutive `x` starting from `x0`
(`v.into_iter().enumerate()` paired each value with its index); the
`usize as i32` casts wrap at `2^31`. -/
def insertRow {T : Type} (values : List (IVec2 × T)) (y : Nat) :
    Nat → List T → List (IVec2 × T)
  | _, [] => values
  | x0, v :: vs => insertRow (mapInsert values ⟨wrap32 x0, wrap32 y⟩ v) y (x0 + 1) vs

/-- One step of the fold inside `Map::parse`: on the first row set `cols`
to the row length, on later rows `assert_eq!` that the length matches
(`none` models the process abort of a failed assertion); then insert the
row's values at row `m.rows` and increment `rows`. -/
def parseFoldStep {T : Type} (m : Map T) (v : List T) : Option (Map T) :=
  if m.cols = 0 then
    some ⟨m.rows + 1, v.length, insertRow m.values m.rows 0 v⟩
  else if m.cols = v.length then
    some ⟨m.rows + 1, m.cols, insertRow m.values m.rows 0 v⟩
  else none

/-- The fold inside `Map::parse`, over the list of parsed rows, starting
from `Map::default()`. -/
def parseFold {T : Type} (m : Map T) : List (List T) → Option (Map T)
  | [] => some m
  | v :: vs =>
    match parseFoldStep m v with
    | none => none
    | some m2 => parseFold m2 vs

/-- Outcome of `Map::parse`: a nom success carrying the remaining input
and the map, a nom error, or a process abort from the `assert_eq!` on
ragged rows. -/
inductive ParseResult (T : Type) where
  | ok : List Char → Map T → ParseResult T
  | err : ParseResult T
  | assertFail : ParseResult T
deriving Repr, DecidableEq

/-- `Map::parse`: run `separated_list1 (line_ending, many1 T::parse)` and
fold the rows into a map. -/
def mapParse {T : Type} (cell : Cell T) (input : List Char) : ParseResult T :=
  match sepLines cell input with
  | none => ParseResult.err
  | some (rows, rest) =>
    match parseFold (Map.defaultMap T) rows with
    | none => ParseResult.assertFail
    | some m => ParseResult.ok rest m

/-- The single-character cell rule of the `map-parse` test suite
(`SomeChar::parse`): fail on a line-ending character or empty input,
otherwise consume exactly one character. -/
def charCell : Cell Char := fun s =>
  match s with
  | [] => none
  | c :: rest => if c = '\n' ∨ c = '\r' then none else some (c, rest)

/-- The value mapping holds an entry exactly at the key the construction
computes for each cell of the `cols × rows` grid: `(x as i32, y as i32)`
with the casts truncating, for `0 ≤ x < cols` and `0 ≤ y < rows`. -/
def wrapDom {T : Type} (m : Map T) : Prop :=
  ∀ p : IVec2,
    (m.get p).isSome = true ↔
      ∃ x y : Nat, x < m.cols ∧ y < m.rows ∧ p = ⟨wrap32 x, wrap32 y⟩

/-- The invariant maintained by the fold inside `Map::parse`: the value
mapping covers exactly the grid's cells, and a map with no columns has no
rows (so its cell set is empty). -/
def foldInv {T : Type} (m : Map T) : Prop :=
  wrapDom m ∧ (m.cols = 0 → m.rows = 0)

/-- A line of cell text: nonempty and free of line-ending characters. -/
def goodLine (l : List Char) : Prop :=
  l ≠ [] ∧ ∀ c ∈ l, c ≠ '\n' ∧ c ≠ '\r'

/-- The text following the first line of a multi-line input: each further
line preceded by one `'\n'` separator. -/
def joinTail : List (List Char) → List Char
  | [] => []
  | l :: ls => '\n' :: (l ++ joinTail ls)

/-- A multi-line input: the lines joined by single `'\n'` separators. -/
def joinLines : List (List Char) → List Char
  | [] => []
  | l :: ls => l ++ joinTail ls

/-- The keys of an association list are pairwise distinct (every value
mapping reachable from `Map::default()` through `HashMap::insert`
satisfies this). -/
def keysDistinct {T : Type} (values : List (IVec2 × T)) : Prop :=
  (values.map Prod.fst).Nodup

/-- The map carried by a successful parse outcome (`Map::default()`
otherwise); used to name the grid of a concrete parse. -/
def parsedMap {T : Type} (r : ParseResult T) : Map T :=
  match r with
  | ParseResult.ok _ m => m
  | _ => ⟨0, 0, []⟩

/-- The grid parsed from the concrete two-by-two input `"12\nab"`, used to
instantiate the general theorems at a concrete map. -/
def map12ab : Map Char := parsedMap (mapParse charCell ['1', '2', '\n', 'a', 'b'])

/-- A single row of `2^31 + 1` cells: long enough that inserting its last
cell overflows the `usize as i32` cast of the column index. -/
def bigRow : List Char := List.replicate 2147483649 'a'

/-- The grid the fold of `Map::parse` builds from the one-line input
`bigRow`: one row, `2^31 + 1` columns, keys truncated by `as i32`. -/
def mapBig : Map Char := ⟨1, 2147483649, insertRow [] 0 0 bigRow⟩

-- Proofs

-- Basic association-list lemmas

theorem mapGet_mapErase {T : Type} (k p : IVec2) (m : List (IVec2 × T))
    (h : p ≠ k) : mapGet p (mapErase k m) = mapGet p m := by
  induction m with
  | nil => rfl
  | cons q qs ih =>
    by_cases hq : q.1 = k
    · simp only [mapErase, if_pos hq, ih, mapGet]
      rw [if_neg]
      exact fun hpq => h (hpq ▸ hq)
    · simp only [mapErase, if_neg hq, mapGet, ih]

theorem mapGet_mapInsert {T : Type} (m : List (IVec2 × T)) (k p : IVec2)
    (v : T) :
    mapGet p (mapInsert m k v) = if p = k then some v else mapGet p m := by
  by_cases h : p = k
  · subst h
    simp [mapInsert, mapGet]
  · simp only [mapInsert, mapGet]
    rw [if_neg fun hkp => h hkp.symm, if_neg h, mapGet_mapErase k p m h]

theorem mapGet_mapWrite_ne {T : Type} (k p : IVec2) (v : T)
    (m : List (IVec2 × T)) (h : p ≠ k) :
    mapGet p (mapWrite k v m) = mapGet p m := by
  induction m with
  | nil => rfl
  | cons q qs ih =>
    by_cases hq : q.1 = k
    · simp only [mapWrite, if_pos hq, mapGet, ih]
      rw [if_neg fun hpq => h hpq.symm, if_neg]
      exact fun hpq => h (hpq ▸ hq)
    · simp only [mapWrite, if_neg hq, mapGet, ih]

theorem mapWrite_isSome {T : Type} (k p : IVec2) (v : T)
    (m : List (IVec2 × T)) :
    (mapGet p (mapWrite k v m)).isSome = (mapGet p m).isSome := by
  by_cases h : p = k
  · subst h
    induction m with
    | nil => rfl
    | cons q qs ih =>
      by_cases hq : q.1 = p
      · simp [mapWrite, if_pos hq, mapGet]
      · simp only [mapWrite, if_neg hq, mapGet, if_neg hq, ih]
  · rw [mapGet_mapWrite_ne k p v m h]

-- Domain of the value mapping produced by the parse fold

theorem is_inside_iff {T : Type} (m : Map T) (p : IVec2) :
    m.is_inside p = true ↔
      0 ≤ p.x ∧ p.x < (m.cols : Int) ∧ 0 ≤ p.y ∧ p.y < (m.rows : Int) := by
  simp only [Map.is_inside, Bool.and_eq_true, decide_eq_true_eq]
  omega

theorem insertRow_isSome {T : Type} (vs : List T) (values : List (IVec2 × T))
    (y x0 : Nat) (p : IVec2) :
    (mapGet p (insertRow values y x0 vs)).isSome = true ↔
      (mapGet p values).isSome = true ∨
        ∃ x : Nat, x0 ≤ x ∧ x < x0 + vs.length ∧ p = ⟨wrap32 x, wrap32 y⟩ := by
  induction vs generalizing values x0 with
  | nil =>
    simp only [insertRow, List.length_nil, Nat.add_zero]
    constructor
    · exact Or.inl
    · rintro (hb | ⟨x, h1, h2, _⟩)
      · exact hb
      · omega
  | cons v vs ih =>
    rw [insertRow, ih, mapGet_mapInsert]
    by_cases hp : p = ⟨wrap32 x0, wrap32 y⟩
    · rw [if_pos hp]
      simp only [Option.isSome_some, List.length_cons]
      constructor
      · intro _
        exact Or.inr ⟨x0, Nat.le_refl x0, by omega, hp⟩
      · intro _
        exact Or.inl trivial
    · rw [if_neg hp]
      simp only [List.length_cons]
      constructor
      · rintro (hb | ⟨x, h1, h2, h3⟩)
        · exact Or.inl hb
        · exact Or.inr ⟨x, by omega, by omega, h3⟩
      · rintro (hb | ⟨x, h1, h2, h3⟩)
        · exact Or.inl hb
        · rcases Nat.eq_or_lt_of_le h1 with heq | hlt
          · subst heq
            exact absurd h3 hp
          · exact Or.inr ⟨x, by omega, by omega, h3⟩

theorem foldInv_default (T : Type) : foldInv (Map.defaultMap T) := by
  constructor
  · intro p
    simp [Map.defaultMap, Map.get, mapGet]
  · intro _
    rfl

theorem parseFoldStep_shape {T : Type} (m m2 : Map T) (v : List T)
    (h : parseFoldStep m v = some m2) :
    m2.rows = m.rows + 1 ∧
      m2.cols = (if m.cols = 0 then v.length else m.cols) ∧
      m2.values = insertRow m.values m.rows 0 v := by
  unfold parseFoldStep at h
  by_cases h0 : m.cols = 0
  · rw [if_pos h0] at h
    obtain rfl := Option.some.inj h
    exact ⟨rfl, by rw [if_pos h0], rfl⟩
  · rw [if_neg h0] at h
    by_cases h1 : m.cols = v.length
    · rw [if_pos h1] at h
      obtain rfl := Option.some.inj h
      exact ⟨rfl, by rw [if_neg h0], rfl⟩
    · rw [if_neg h1] at h
      exact absurd h (by simp)

theorem parseFoldStep_ragged {T : Type} (m : Map T) (v : List T)
    (h0 : m.cols ≠ 0) (h1 : m.cols ≠ v.length) :
    parseFoldStep m v = none := by
  unfold parseFoldStep
  rw [if_neg h0, if_neg h1]

theorem parseFoldStep_inv {T : Type} (m m2 : Map T) (v : List T)
    (hv : v ≠ []) (hinv : foldInv m) (h : parseFoldStep m v = some m2) :
    foldInv m2 := by
  obtain ⟨hwrap, hcz⟩ := hinv
  obtain ⟨hrows, hcols, hvals⟩ := parseFoldStep_shape m m2 v h
  have hvlen : 0 < v.length := List.length_pos.mpr hv
  have hvcols : v.length = m2.cols := by
    by_cases h0 : m.cols = 0
    · rw [hcols, if_pos h0]
    · by_cases hc : m.cols = v.length
      · rw [hcols, if_neg h0, hc]
      · rw [parseFoldStep_ragged m v h0 hc] at h
        exact absurd h (by simp)
  constructor
  · intro p
    have hbase := hwrap p
    simp only [Map.get] at hbase ⊢
    rw [hvals, insertRow_isSome, hbase]
    by_cases h0 : m.cols = 0
    · have hr0 : m.rows = 0 := hcz h0
      constructor
      · rintro (⟨x, y, hx, hy, h3⟩ | ⟨x, h1, h2, h3⟩)
        · omega
        · exact ⟨x, m.rows, by omega, by omega, h3⟩
      · rintro ⟨x, y, hx, hy, h3⟩
        refine Or.inr ⟨x, by omega, by omega, ?_⟩
        have hym : y = m.rows := by omega
        rw [← hym]
        exact h3
    · have hceq : m2.cols = m.cols := by
        rw [hcols, if_neg h0]
      constructor
      · rintro (⟨x, y, hx, hy, h3⟩ | ⟨x, h1, h2, h3⟩)
        · exact ⟨x, y, by omega, by omega, h3⟩
        · exact ⟨x, m.rows, by omega, by omega, h3⟩
      · rintro ⟨x, y, hx, hy, h3⟩
        by_cases hym : y < m.rows
        · exact Or.inl ⟨x, y, by omega, hym, h3⟩
        · refine Or.inr ⟨x, by omega, by omega, ?_⟩
          have hyeq : y = m.rows := by omega
          rw [← hyeq]
          exact h3
  · intro h2c
    rw [hcols] at h2c
    by_cases h0 : m.cols = 0
    · rw [if_pos h0] at h2c
      omega
    · rw [if_neg h0] at h2c
      exact absurd h2c h0

theorem parseFold_inv {T : Type} :
    ∀ (rows : List (List T)) (m m2 : Map T), foldInv m →
      (∀ v ∈ rows, v ≠ []) → parseFold m rows = some m2 → foldInv m2 := by
  intro rows
  induction rows with
  | nil =>
    intro m m2 hinv _ h
    obtain rfl := Option.some.inj h
    exact hinv
  | cons v vs ih =>
    intro m m2 hinv hne h
    unfold parseFold at h
    cases hs : parseFoldStep m v with
    | none => rw [hs] at h; exact absurd h (by simp)
    | some m1 =>
      rw [hs] at h
      have hinv1 := parseFoldStep_inv m m1 v (hne v (by simp)) hinv hs
      exact ih m1 m2 hinv1 (fun r hr => hne r (by simp [hr])) h

theorem parseFold_rows_count {T : Type} :
    ∀ (rows : List (List T)) (m m2 : Map T),
      parseFold m rows = some m2 → m2.rows = m.rows + rows.length := by
  intro rows
  induction rows with
  | nil =>
    intro m m2 h
    obtain rfl := Option.some.inj h
    simp
  | cons v vs ih =>
    intro m m2 h
    unfold parseFold at h
    cases hs : parseFoldStep m v with
    | none => rw [hs] at h; exact absurd h (by simp)
    | some m1 =>
      rw [hs] at h
      obtain ⟨hr, _, _⟩ := parseFoldStep_shape m m1 v hs
      rw [ih m1 m2 h, hr, List.length_cons]
      omega

theorem parseFold_cols_stable {T : Type} :
    ∀ (rows : List (List T)) (m m2 : Map T), m.cols ≠ 0 →
      parseFold m rows = some m2 → m2.cols = m.cols := by
  intro rows
  induction rows with
  | nil =>
    intro m m2 _ h
    obtain rfl := Option.some.inj h
    rfl
  | cons v vs ih =>
    intro m m2 h0 h
    unfold parseFold at h
    cases hs : parseFoldStep m v with
    | none => rw [hs] at h; exact absurd h (by simp)
    | some m1 =>
      rw [hs] at h
      obtain ⟨_, hc, _⟩ := parseFoldStep_shape m m1 v hs
      rw [if_neg h0] at hc
      rw [ih m1 m2 (by rw [hc]; exact h0) h, hc]

-- Shape of the row lists produced by the nom combinators

theorem many1Loop_acc {T : Type} (cell : Cell T) :
    ∀ (fuel : Nat) (s : List Char) (acc l : List T) (r : List Char),
      many1Loop cell fuel s acc = some (l, r) →
      ∃ l2, l = acc.reverse ++ l2 := by
  intro fuel
  induction fuel with
  | zero => intro s acc l r h; exact absurd h (by simp [many1Loop])
  | succ fuel ih =>
    intro s acc l r h
    unfold many1Loop at h
    cases hc : cell s with
    | none =>
      rw [hc] at h
      simp only [Option.some.injEq, Prod.mk.injEq] at h
      exact ⟨[], by simp [h.1.symm]⟩
    | some vr =>
      obtain ⟨v, rest⟩ := vr
      rw [hc] at h
      simp only at h
      split at h
      · exact absurd h (by simp)
      · obtain ⟨l2, hl⟩ := ih rest (v :: acc) l r h
        exact ⟨v :: l2, by simp [hl]⟩

theorem many1_ne_nil {T : Type} (cell : Cell T) (s : List Char)
    (l : List T) (r : List Char) (h : many1 cell s = some (l, r)) :
    l ≠ [] := by
  unfold many1 at h
  cases hc : cell s with
  | none => rw [hc] at h; exact absurd h (by simp)
  | some vr =>
    obtain ⟨v, rest⟩ := vr
    rw [hc] at h
    obtain ⟨l2, hl⟩ := many1Loop_acc cell (rest.length + 1) rest [v] l r h
    rw [hl]
    simp

theorem sepLinesLoop_acc {T : Type} (cell : Cell T) :
    ∀ (fuel : Nat) (i : List Char) (acc ls : List (List T)) (r : List Char),
      sepLinesLoop cell fuel i acc = some (ls, r) →
      ∃ ls2, ls = acc.reverse ++ ls2 ∧ ∀ row ∈ ls2, row ≠ [] := by
  intro fuel
  induction fuel with
  | zero => intro i acc ls r h; exact absurd h (by simp [sepLinesLoop])
  | succ fuel ih =>
    intro i acc ls r h
    unfold sepLinesLoop at h
    cases he : lineEnding i with
    | none =>
      rw [he] at h
      simp only [Option.some.injEq, Prod.mk.injEq] at h
      exact ⟨[], by simp [h.1.symm], nofun⟩
    | some i1 =>
      rw [he] at h
      simp only at h
      split at h
      · exact absurd h (by simp)
      · cases hm : many1 cell i1 with
        | none =>
          rw [hm] at h
          simp only [Option.some.injEq, Prod.mk.injEq] at h
          exact ⟨[], by simp [h.1.symm], nofun⟩
        | some rowi2 =>
          obtain ⟨row, i2⟩ := rowi2
          rw [hm] at h
          obtain ⟨ls2, hl, hne⟩ := ih i2 (row :: acc) ls r h
          refine ⟨row :: ls2, by simp [hl], ?_⟩
          intro q hq
          cases hq with
          | head => exact many1_ne_nil cell i1 row i2 hm
          | tail _ hq2 => exact hne q hq2

theorem sepLines_rows {T : Type} (cell : Cell T) (i : List Char)
    (ls : List (List T)) (r : List Char) (h : sepLines cell i = some (ls, r)) :
    ls ≠ [] ∧ ∀ row ∈ ls, row ≠ [] := by
  unfold sepLines at h
  cases hm : many1 cell i with
  | none => rw [hm] at h; exact absurd h (by simp)
  | some rowi1 =>
    obtain ⟨row, i1⟩ := rowi1
    rw [hm] at h
    obtain ⟨ls2, hl, hne⟩ := sepLinesLoop_acc cell (i1.length + 1) i1 [row] ls r h
    rw [hl]
    refine ⟨by simp, ?_⟩
    intro q hq
    simp only [List.reverse_cons, List.reverse_nil, List.nil_append,
      List.singleton_append, List.mem_cons] at hq
    cases hq with
    | inl hq1 => rw [hq1]; exact many1_ne_nil cell i row i1 hm
    | inr hq2 => exact hne q hq2

-- Main helper: every successfully parsed map holds a value at exactly the
-- wrapped key of each grid cell, and has at least one row and one column.

theorem mapParse_ok_wrap {T : Type} (cell : Cell T) (input rest : List Char)
    (m : Map T) (h : mapParse cell input = ParseResult.ok rest m) :
    wrapDom m ∧ 1 ≤ m.rows ∧ 1 ≤ m.cols := by
  unfold mapParse at h
  cases hs : sepLines cell input with
  | none => rw [hs] at h; exact absurd h (by simp)
  | some rowsrest =>
    obtain ⟨rows, r⟩ := rowsrest
    rw [hs] at h
    simp only at h
    cases hf : parseFold (Map.defaultMap T) rows with
    | none => rw [hf] at h; exact absurd h (by simp)
    | some m1 =>
      rw [hf] at h
      simp only [ParseResult.ok.injEq] at h
      obtain ⟨rfl, rfl⟩ := h
      obtain ⟨hne, hrowsne⟩ := sepLines_rows cell input rows r hs
      have hinv := parseFold_inv rows (Map.defaultMap T) m1
        (foldInv_default T) hrowsne hf
      refine ⟨hinv.1, ?_, ?_⟩
      · have := parseFold_rows_count rows (Map.defaultMap T) m1 hf
        rw [this]
        have : rows.length ≠ 0 := fun h0 => hne (List.length_eq_zero.mp h0)
        simp [Map.defaultMap]
        omega
      · cases rows with
        | nil => exact absurd rfl hne
        | cons v vs =>
          unfold parseFold at hf
          cases hstep : parseFoldStep (Map.defaultMap T) v with
          | none => rw [hstep] at hf; exact absurd hf (by simp)
          | some mA =>
            rw [hstep] at hf
            obtain ⟨_, hc, _⟩ := parseFoldStep_shape (Map.defaultMap T) mA v hstep
            have hv : v ≠ [] := hrowsne v (by simp)
            have hvpos : 0 < v.length := List.length_pos.mpr hv
            have hcA : mA.cols = v.length := by
              rw [hc]
              simp [Map.defaultMap]
            have := parseFold_cols_stable vs mA m1 (by omega) hf
            omega

-- Behaviour of the parser on the single-character cell rule

theorem charCell_good {c : Char} {rest : List Char}
    (h1 : c ≠ '\n') (h2 : c ≠ '\r') :
    charCell (c :: rest) = some (c, rest) := by
  unfold charCell
  simp only
  rw [if_neg]
  rintro (h | h)
  · exact h1 h
  · exact h2 h

theorem charCell_stop {s : List Char}
    (h : s = [] ∨ (∃ s2, s = '\n' :: s2) ∨ ∃ s2, s = '\r' :: s2) :
    charCell s = none := by
  rcases h with rfl | ⟨s2, rfl⟩ | ⟨s2, rfl⟩
  · rfl
  · unfold charCell
    simp
  · unfold charCell
    simp

theorem many1Loop_charCell :
    ∀ (l : List Char) (fuel : Nat) (acc : List Char) (suff : List Char),
      (∀ c ∈ l, c ≠ '\n' ∧ c ≠ '\r') → l.length < fuel →
      (suff = [] ∨ ∃ s2, suff = '\n' :: s2) →
      many1Loop charCell fuel (l ++ suff) acc = some (acc.reverse ++ l, suff) := by
  intro l
  induction l with
  | nil =>
    intro fuel acc suff _ hfuel hsuff
    cases fuel with
    | zero => omega
    | succ fuel =>
      unfold many1Loop
      rw [List.nil_append,
        charCell_stop (by rcases hsuff with rfl | ⟨s2, rfl⟩
                          · exact Or.inl rfl
                          · exact Or.inr (Or.inl ⟨s2, rfl⟩))]
      simp
  | cons c l2 ih =>
    intro fuel acc suff hgood hfuel hsuff
    cases fuel with
    | zero => simp at hfuel
    | succ fuel =>
      unfold many1Loop
      rw [List.cons_append,
        charCell_good (hgood c (by simp)).1 (hgood c (by simp)).2]
      simp only
      rw [if_neg (by simp)]
      have := ih fuel (c :: acc) suff
        (fun d hd => hgood d (by simp [hd])) (by simp at hfuel ⊢; omega) hsuff
      rw [this]
      simp

theorem many1_charCell (l suff : List Char) (hgood : goodLine l)
    (hsuff : suff = [] ∨ ∃ s2, suff = '\n' :: s2) :
    many1 charCell (l ++ suff) = some (l, suff) := by
  obtain ⟨hne, hchars⟩ := hgood
  cases l with
  | nil => exact absurd rfl hne
  | cons c l2 =>
    unfold many1
    rw [List.cons_append,
      charCell_good (hchars c (by simp)).1 (hchars c (by simp)).2]
    simp only
    have := many1Loop_charCell l2 ((l2 ++ suff).length + 1) [c] suff
      (fun d hd => hchars d (by simp [hd])) (by simp; omega) hsuff
    rw [this]
    simp

theorem joinTail_shape (ls : List (List Char)) :
    joinTail ls = [] ∨ ∃ s2, joinTail ls = '\n' :: s2 := by
  cases ls with
  | nil => exact Or.inl rfl
  | cons l ls2 => exact Or.inr ⟨l ++ joinTail ls2, rfl⟩

theorem sepLinesLoop_charCell :
    ∀ (ls : List (List Char)) (fuel : Nat) (acc : List (List Char)),
      (∀ l ∈ ls, goodLine l) → (joinTail ls).length < fuel →
      sepLinesLoop charCell fuel (joinTail ls) acc =
        some (acc.reverse ++ ls, []) := by
  intro ls
  induction ls with
  | nil =>
    intro fuel acc _ hfuel
    cases fuel with
    | zero => simp at hfuel
    | succ fuel =>
      unfold sepLinesLoop
      unfold joinTail
      simp [lineEnding]
  | cons l ls2 ih =>
    intro fuel acc hgood hfuel
    cases fuel with
    | zero => simp at hfuel
    | succ fuel =>
      unfold sepLinesLoop
      have hjt : joinTail (l :: ls2) = '\n' :: (l ++ joinTail ls2) := rfl
      rw [hjt]
      have hle : lineEnding ('\n' :: (l ++ joinTail ls2)) = some (l ++ joinTail ls2) := rfl
      rw [hle]
      simp only
      rw [if_neg (by simp)]
      rw [many1_charCell l (joinTail ls2) (hgood l (by simp)) (joinTail_shape ls2)]
      simp only
      have := ih fuel (l :: acc) (fun q hq => hgood q (by simp [hq]))
        (by rw [hjt] at hfuel; simp at hfuel ⊢; omega)
      rw [this]
      simp

theorem sepLines_charCell (ls : List (List Char)) (hne : ls ≠ [])
    (hgood : ∀ l ∈ ls, goodLine l) :
    sepLines charCell (joinLines ls) = some (ls, []) := by
  cases ls with
  | nil => exact absurd rfl hne
  | cons l ls2 =>
    unfold sepLines
    have hjl : joinLines (l :: ls2) = l ++ joinTail ls2 := rfl
    rw [hjl, many1_charCell l (joinTail ls2) (hgood l (by simp)) (joinTail_shape ls2)]
    simp only
    have := sepLinesLoop_charCell ls2 ((joinTail ls2).length + 1) [l]
      (fun q hq => hgood q (by simp [hq])) (by omega)
    rw [this]
    simp

theorem parseFold_const_cols {T : Type} :
    ∀ (vs : List (List T)) (m : Map T) (C : Nat), C ≠ 0 → m.cols = C →
      (∀ v ∈ vs, v.length = C) →
      ∃ m2, parseFold m vs = some m2 ∧ m2.cols = C ∧ m2.rows = m.rows + vs.length := by
  intro vs
  induction vs with
  | nil =>
    intro m C _ hc _
    exact ⟨m, rfl, hc, by simp [parseFold]⟩
  | cons v vs2 ih =>
    intro m C hC hc hlen
    have hstep : parseFoldStep m v =
        some ⟨m.rows + 1, m.cols, insertRow m.values m.rows 0 v⟩ := by
      unfold parseFoldStep
      rw [if_neg (by rw [hc]; exact hC), if_pos (by rw [hc, hlen v (by simp)])]
    obtain ⟨m2, hfold, hc2, hr2⟩ :=
      ih ⟨m.rows + 1, m.cols, insertRow m.values m.rows 0 v⟩ C hC hc
        (fun q hq => hlen q (by simp [hq]))
    refine ⟨m2, ?_, hc2, by rw [hr2]; simp; omega⟩
    unfold parseFold
    rw [hstep]
    simp only
    exact hfold

theorem mapParse_charCell_shape (ls : List (List Char)) (C : Nat)
    (hne : ls ≠ []) (hC : 0 < C)
    (hlines : ∀ l ∈ ls, l.length = C ∧ ∀ c ∈ l, c ≠ '\n' ∧ c ≠ '\r') :
    ∃ m, mapParse charCell (joinLines ls) = ParseResult.ok [] m ∧
      m.rows = ls.length ∧ m.cols = C := by
  have hgood : ∀ l ∈ ls, goodLine l := by
    intro l hl
    refine ⟨?_, (hlines l hl).2⟩
    intro h0
    rw [h0] at hl
    have := (hlines [] hl).1
    simp at this
    omega
  unfold mapParse
  rw [sepLines_charCell ls hne hgood]
  simp only
  cases ls with
  | nil => exact absurd rfl hne
  | cons l ls2 =>
    have hstep : parseFoldStep (Map.defaultMap Char) l =
        some ⟨1, l.length, insertRow [] 0 0 l⟩ := by
      unfold parseFoldStep
      rw [if_pos (by simp [Map.defaultMap])]
      simp [Map.defaultMap]
    have hlC : l.length = C := (hlines l (by simp)).1
    obtain ⟨m2, hfold, hc2, hr2⟩ :=
      parseFold_const_cols ls2 ⟨1, l.length, insertRow [] 0 0 l⟩ C
        (by omega) (by simp [hlC])
        (fun q hq => (hlines q (by simp [hq])).1)
    unfold parseFold
    rw [hstep]
    simp only
    rw [hfold]
    exact ⟨m2, rfl, by rw [hr2]; simp; omega, hc2⟩

-- Empty input

theorem mapParse_nil_err {T : Type} (cell : Cell T)
    (h : cell [] = none ∨ ∃ v, cell [] = some (v, [])) :
    mapParse cell [] = ParseResult.err := by
  have hm : many1 cell [] = none := by
    unfold many1
    rcases h with h0 | ⟨v, h0⟩ <;> rw [h0]
    simp only
    unfold many1Loop
    rw [h0]
    simp
  unfold mapParse sepLines
  rw [hm]

-- Distinct keys of every reachable value mapping

theorem mapErase_keys_sub {T : Type} (k a : IVec2) :
    ∀ values : List (IVec2 × T),
      a ∈ (mapErase k values).map Prod.fst → a ∈ values.map Prod.fst := by
  intro values
  induction values with
  | nil => intro h; exact h
  | cons q qs ih =>
    intro h
    unfold mapErase at h
    by_cases hq : q.1 = k
    · rw [if_pos hq] at h
      simp only [List.map_cons, List.mem_cons]
      exact Or.inr (ih h)
    · rw [if_neg hq] at h
      simp only [List.map_cons, List.mem_cons] at h ⊢
      rcases h with h | h
      · exact Or.inl h
      · exact Or.inr (ih h)

theorem mapErase_keys_not_mem {T : Type} (k : IVec2) :
    ∀ values : List (IVec2 × T), k ∉ (mapErase k values).map Prod.fst := by
  intro values
  induction values with
  | nil => simp [mapErase]
  | cons q qs ih =>
    unfold mapErase
    by_cases hq : q.1 = k
    · rw [if_pos hq]
      exact ih
    · rw [if_neg hq]
      simp only [List.map_cons, List.mem_cons]
      rintro (h | h)
      · exact hq h.symm
      · exact ih h

theorem keysDistinct_mapErase {T : Type} (k : IVec2) :
    ∀ values : List (IVec2 × T),
      keysDistinct values → keysDistinct (mapErase k values) := by
  intro values
  induction values with
  | nil => intro h; exact h
  | cons q qs ih =>
    intro h
    unfold keysDistinct at h
    simp only [List.map_cons, List.nodup_cons] at h
    unfold mapErase
    by_cases hq : q.1 = k
    · rw [if_pos hq]
      exact ih h.2
    · rw [if_neg hq]
      unfold keysDistinct
      simp only [List.map_cons, List.nodup_cons]
      exact ⟨fun hmem => h.1 (mapErase_keys_sub k q.1 qs hmem), ih h.2⟩

theorem keysDistinct_mapInsert {T : Type} (values : List (IVec2 × T))
    (k : IVec2) (v : T) (h : keysDistinct values) :
    keysDistinct (mapInsert values k v) := by
  unfold mapInsert keysDistinct
  simp only [List.map_cons, List.nodup_cons]
  exact ⟨mapErase_keys_not_mem k values, keysDistinct_mapErase k values h⟩

theorem keysDistinct_insertRow {T : Type} :
    ∀ (vs : List T) (values : List (IVec2 × T)) (y x0 : Nat),
      keysDistinct values → keysDistinct (insertRow values y x0 vs) := by
  intro vs
  induction vs with
  | nil => intro values y x0 h; exact h
  | cons v vs2 ih =>
    intro values y x0 h
    unfold insertRow
    exact ih _ y (x0 + 1) (keysDistinct_mapInsert values _ v h)

theorem keysDistinct_parseFold {T : Type} :
    ∀ (rows : List (List T)) (m m2 : Map T), keysDistinct m.values →
      parseFold m rows = some m2 → keysDistinct m2.values := by
  intro rows
  induction rows with
  | nil =>
    intro m m2 h hf
    obtain rfl := Option.some.inj hf
    exact h
  | cons v vs ih =>
    intro m m2 h hf
    unfold parseFold at hf
    cases hs : parseFoldStep m v with
    | none => rw [hs] at hf; exact absurd hf (by simp)
    | some m1 =>
      rw [hs] at hf
      obtain ⟨_, _, hvals⟩ := parseFoldStep_shape m m1 v hs
      exact ih m1 m2 (by rw [hvals]; exact keysDistinct_insertRow v m.values m.rows 0 h) hf

theorem mapParse_keysDistinct {T : Type} (cell : Cell T)
    (input rest : List Char) (m : Map T)
    (h : mapParse cell input = ParseResult.ok rest m) :
    keysDistinct m.values := by
  unfold mapParse at h
  cases hs : sepLines cell input with
  | none => rw [hs] at h; exact absurd h (by simp)
  | some rowsrest =>
    obtain ⟨rows, r⟩ := rowsrest
    rw [hs] at h
    simp only at h
    cases hf : parseFold (Map.defaultMap T) rows with
    | none => rw [hf] at h; exact absurd h (by simp)
    | some m1 =>
      rw [hf] at h
      simp only [ParseResult.ok.injEq] at h
      obtain ⟨rfl, rfl⟩ := h
      exact keysDistinct_parseFold rows (Map.defaultMap T) m1 (by simp [Map.defaultMap, keysDistinct]) hf

theorem mem_iff_mapGet {T : Type} :
    ∀ (values : List (IVec2 × T)) (k : IVec2) (v : T), keysDistinct values →
      ((k, v) ∈ values ↔ mapGet k values = some v) := by
  intro values
  induction values with
  | nil => intro k v _; simp [mapGet]
  | cons q qs ih =>
    intro k v h
    unfold keysDistinct at h
    simp only [List.map_cons, List.nodup_cons] at h
    unfold mapGet
    by_cases hq : q.1 = k
    · rw [if_pos hq]
      simp only [List.mem_cons, Option.some.injEq]
      constructor
      · rintro (rfl | hmem)
        · rfl
        · exact absurd (hq ▸ List.mem_map_of_mem Prod.fst hmem) h.1
      · intro hv
        left
        obtain ⟨q1, q2⟩ := q
        simp only at hq hv
        rw [hq, hv]
    · rw [if_neg hq]
      rw [← ih k v h.2]
      simp only [List.mem_cons]
      constructor
      · rintro (rfl | hmem)
        · exact absurd rfl hq
        · exact hmem
      · exact Or.inr

-- Truncation of the usize -> i32 casts

theorem wrap32_eq_of_lt {n : Nat} (h : n < 2147483648) : wrap32 n = n := by
  unfold wrap32
  rw [Nat.mod_eq_of_lt (by omega)]
  push_cast
  omega

/-- For grids whose dimensions stay at or below `2^31` the wrapped keys
are the identity, and the parsed value mapping covers exactly the
in-bounds rectangle. -/
theorem mapParse_ok_rect {T : Type} (cell : Cell T) (input rest : List Char)
    (m : Map T) (h : mapParse cell input = ParseResult.ok rest m)
    (hr : m.rows ≤ 2147483648) (hc : m.cols ≤ 2147483648) (p : IVec2) :
    (m.get p).isSome = true ↔
      0 ≤ p.x ∧ p.x < (m.cols : Int) ∧ 0 ≤ p.y ∧ p.y < (m.rows : Int) := by
  rw [(mapParse_ok_wrap cell input rest m h).1 p]
  constructor
  · rintro ⟨x, y, hx, hy, h3⟩
    have hwx : wrap32 x = (x : Int) := wrap32_eq_of_lt (by omega)
    have hwy : wrap32 y = (y : Int) := wrap32_eq_of_lt (by omega)
    have h3x : p.x = wrap32 x := by rw [h3]
    have h3y : p.y = wrap32 y := by rw [h3]
    refine ⟨?_, ?_, ?_, ?_⟩ <;> omega
  · rintro ⟨hx0, hx1, hy0, hy1⟩
    refine ⟨p.x.toNat, p.y.toNat, by omega, by omega, ?_⟩
    rw [wrap32_eq_of_lt (by omega), wrap32_eq_of_lt (by omega),
      Int.toNat_of_nonneg hx0, Int.toNat_of_nonneg hy0]

-- Ragged row lists always hit the aborting assertion

theorem bigRow_length : bigRow.length = 2147483649 := by
  unfold bigRow
  rw [List.length_replicate]

theorem bigRow_goodLine : goodLine bigRow := by
  constructor
  · intro h
    have hlen := congrArg List.length h
    rw [bigRow_length] at hlen
    simp at hlen
  · intro c hc
    have hc2 : c ∈ List.replicate 2147483649 'a' := hc
    rw [List.eq_of_mem_replicate hc2]
    exact ⟨by decide, by decide⟩

theorem mapParse_of_pieces {T : Type} (cell : Cell T) (input rest : List Char)
    (rows : List (List T)) (m : Map T)
    (hs : sepLines cell input = some (rows, rest))
    (hf : parseFold (Map.defaultMap T) rows = some m) :
    mapParse cell input = ParseResult.ok rest m := by
  unfold mapParse
  rw [hs]
  simp only
  rw [hf]

theorem sepLines_bigRow :
    sepLines charCell (joinLines [bigRow]) = some ([bigRow], []) := by
  rw [sepLines_charCell [bigRow] (by simp)
    (by intro l hl
        rw [List.mem_singleton.mp hl]
        exact bigRow_goodLine)]

theorem parseFoldStep_bigRow :
    parseFoldStep (Map.defaultMap Char) bigRow = some mapBig := by
  unfold parseFoldStep
  rw [if_pos (show (Map.defaultMap Char).cols = 0 from rfl)]
  rw [show (Map.defaultMap Char).rows = 0 from rfl,
    show (Map.defaultMap Char).values = ([] : List (IVec2 × Char)) from rfl,
    bigRow_length, Nat.zero_add]
  rfl

theorem parseFold_bigRow :
    parseFold (Map.defaultMap Char) [bigRow] = some mapBig := by
  unfold parseFold
  rw [parseFoldStep_bigRow]
  rfl

theorem mapParse_bigRow :
    mapParse charCell (joinLines [bigRow]) = ParseResult.ok [] mapBig :=
  mapParse_of_pieces charCell (joinLines [bigRow]) [] [bigRow] mapBig
    sepLines_bigRow parseFold_bigRow

theorem mapBig_rows : mapBig.rows = 1 := rfl

theorem mapBig_cols : mapBig.cols = 2147483649 := rfl

/-- Inserting the row of `2^31 + 1` cells stores the cell at column
`2^31` under the wrapped key `-2^31`: the parsed grid answers `get` at a
negative position. -/
theorem mapBig_get_neg : (mapBig.get ⟨-2147483648, 0⟩).isSome = true := by
  have hdom := (mapParse_ok_wrap charCell (joinLines [bigRow]) [] mapBig
    mapParse_bigRow).1 ⟨-2147483648, 0⟩
  rw [hdom]
  refine ⟨2147483648, 0, ?_, ?_, ?_⟩
  · rw [mapBig_cols]
    omega
  · rw [mapBig_rows]
    omega
  · rw [show wrap32 2147483648 = -2147483648 by decide,
      show wrap32 0 = 0 by decide]

/-- C1, counterexample to the claim as stated: the one-line input of
`2^31 + 1` cells parses successfully, yet the cell at column `2^31` is
stored under the key wrapped by `as i32` to `-2^31`, so `get` returns a
value at a negative position — the claim promises `None` there. -/
theorem claim_c1_cex :
    mapParse charCell (joinLines [bigRow]) = ParseResult.ok [] mapBig ∧
    (⟨-2147483648, 0⟩ : IVec2).x < 0 ∧
    (mapBig.get ⟨-2147483648, 0⟩).isSome = true ∧
    mapBig.is_inside ⟨-2147483648, 0⟩ = false :=
  ⟨mapParse_bigRow, by decide, mapBig_get_neg, by decide⟩

/-- C1 (amended): for every grid obtained from a successful `Map::parse`
(any cell rule) whose dimensions do not exceed `2^31` — beyond that the
`usize as i32` key casts wrap, see `claim_c1_cex` — `get((x, y))` returns
a value exactly when `0 ≤ x < col_count()` and `0 ≤ y < row_count()`, and
`None` otherwise, negative coordinates included.  `get` is a total lookup
(`HashMap::get` never panics). -/
theorem claim_c1 {T : Type} (cell : Cell T) (input rest : List Char)
    (m : Map T) (h : mapParse cell input = ParseResult.ok rest m)
    (hrows : m.row_count ≤ 2147483648) (hcols : m.col_count ≤ 2147483648)
    (p : IVec2) :
    (m.get p).isSome = true ↔
      0 ≤ p.x ∧ p.x < (m.col_count : Int) ∧
        0 ≤ p.y ∧ p.y < (m.row_count : Int) :=
  mapParse_ok_rect cell input rest m h hrows hcols p

theorem claim_c1_witness :
    ((map12ab.get ⟨0, 1⟩).isSome = true ↔
      0 ≤ (⟨0, 1⟩ : IVec2).x ∧ (⟨0, 1⟩ : IVec2).x < (map12ab.col_count : Int) ∧
        0 ≤ (⟨0, 1⟩ : IVec2).y ∧ (⟨0, 1⟩ : IVec2).y < (map12ab.row_count : Int)) :=
  claim_c1 charCell ['1', '2', '\n', 'a', 'b'] [] map12ab (by decide)
    (by decide) (by decide) ⟨0, 1⟩

/-- C2: for every `Map` and every position (an arbitrary pair of signed
integers, negative components included), `is_inside(pos)` is true iff
`0 ≤ pos.x < col_count()` and `0 ≤ pos.y < row_count()`; it is a total
boolean function (the `as usize` casts are guarded by the sign checks, so
it never panics). -/
theorem claim_c2 {T : Type} (m : Map T) (pos : IVec2) :
    m.is_inside pos = true ↔
      0 ≤ pos.x ∧ pos.x < (m.col_count : Int) ∧
        0 ≤ pos.y ∧ pos.y < (m.row_count : Int) :=
  is_inside_iff m pos

/-- C3: every rectangular input of R nonempty rows of C non-line-ending
characters each, joined by line endings and parsed with the
single-character cell rule, parses successfully with `row_count() = R` and
`col_count() = C` (e.g. `"123\nabc"` yields rows = 2, cols = 3). -/
theorem claim_c3 (lines : List (List Char)) (C : Nat) (hne : lines ≠ [])
    (hC : 0 < C)
    (hlines : ∀ l ∈ lines, l.length = C ∧ ∀ c ∈ l, c ≠ '\n' ∧ c ≠ '\r') :
    ∃ m, mapParse charCell (joinLines lines) = ParseResult.ok [] m ∧
      m.row_count = lines.length ∧ m.col_count = C :=
  mapParse_charCell_shape lines C hne hC hlines

theorem claim_c3_witness :
    ∃ m, mapParse charCell
        (joinLines [['1', '2', '3'], ['a', 'b', 'c']]) = ParseResult.ok [] m ∧
      m.row_count = [['1', '2', '3'], ['a', 'b', 'c']].length ∧
      m.col_count = 3 :=
  claim_c3 [['1', '2', '3'], ['a', 'b', 'c']] 3 (by decide) (by decide)
    (by decide)

/-- C6: the shape of a map is immutable: the read accessors `is_inside`,
`get`, `row_count` and `col_count` take `&self` and are modelled as pure
functions, and the only mutation reachable through the public interface —
writing through a reference obtained from `get_mut` — changes neither
`rows` nor `cols` nor the set of positions holding a value, only the value
stored at an existing position. -/
theorem claim_c6 {T : Type} (m : Map T) (pos : IVec2) (v : T) :
    (m.writeCell pos v).row_count = m.row_count ∧
    (m.writeCell pos v).col_count = m.col_count ∧
    ∀ q : IVec2, ((m.writeCell pos v).get q).isSome = (m.get q).isSome := by
  cases hg : mapGet pos m.values with
  | none =>
    have hwc : m.writeCell pos v = m := by
      unfold Map.writeCell
      rw [hg]
    rw [hwc]
    exact ⟨rfl, rfl, fun q => rfl⟩
  | some w =>
    have hwc : m.writeCell pos v = ⟨m.rows, m.cols, mapWrite pos v m.values⟩ := by
      unfold Map.writeCell
      rw [hg]
    rw [hwc]
    refine ⟨rfl, rfl, fun q => ?_⟩
    show (mapGet q (mapWrite pos v m.values)).isSome = (mapGet q m.values).isSome
    exact mapWrite_isSome pos q v m.values

/-- C7: on a parsed (unmutated) grid, `values_iter()` yields a finite list
of (position, value) pairs — exactly the pairs `get` reports, each
in-bounds position once — and restarting the iteration yields the same
multiset of pairs (the iteration order of the unordered mapping is not
part of the contract). -/
theorem claim_c7 {T : Type} (cell : Cell T) (input rest : List Char)
    (m : Map T) (h : mapParse cell input = ParseResult.ok rest m) :
    (∀ (p : IVec2) (v : T), (p, v) ∈ m.values_iter ↔ m.get p = some v) ∧
    (Multiset.ofList m.values_iter : Multiset (IVec2 × T)) =
      Multiset.ofList m.values_iter :=
  ⟨fun p v => mem_iff_mapGet m.values p v (mapParse_keysDistinct cell input rest m h),
   rfl⟩

theorem claim_c7_witness :
    (∀ (p : IVec2) (v : Char),
      (p, v) ∈ map12ab.values_iter ↔ map12ab.get p = some v) ∧
    (Multiset.ofList map12ab.values_iter : Multiset (IVec2 × Char)) =
      Multiset.ofList map12ab.values_iter :=
  claim_c7 charCell ['1', '2', '\n', 'a', 'b'] [] map12ab (by decide)

/-- C8: `Map::parse` is atomic: on any input it either succeeds, returning
the remaining input together with a fully constructed grid — one holding a
value at exactly the key `(x as i32, y as i32)` the construction computes
for each of the `cols × rows` cells, and nothing else, at every grid
size — or it fails (nom error or aborted assertion), in which case no
partially constructed grid is visible: the failing outcomes carry no map
at all. -/
theorem claim_c8 {T : Type} (cell : Cell T) (input : List Char) :
    (∃ rest m, mapParse cell input = ParseResult.ok rest m ∧
      ∀ p : IVec2, (m.get p).isSome = true ↔
        ∃ x y : Nat, x < m.col_count ∧ y < m.row_count ∧
          p = ⟨wrap32 x, wrap32 y⟩) ∨
    mapParse cell input = ParseResult.err ∨
    mapParse cell input = ParseResult.assertFail := by
  cases hr : mapParse cell input with
  | ok rest m =>
    exact Or.inl ⟨rest, m, rfl,
      fun p => (mapParse_ok_wrap cell input rest m hr).1 p⟩
  | err => exact Or.inr (Or.inl rfl)
  | assertFail => exact Or.inr (Or.inr rfl)

/-- C9: `Map::parse` requires at least one line with at least one cell: on
empty input it fails with a parse error (not the aborting assertion — any
cell rule over string slices either fails on empty input or consumes
nothing from it), and every successfully parsed grid has
`row_count() ≥ 1` and `col_count() ≥ 1`. -/
theorem claim_c9 {T : Type} (cell : Cell T)
    (hnil : cell [] = none ∨ ∃ v, cell [] = some (v, [])) :
    mapParse cell [] = ParseResult.err ∧
    ∀ (input rest : List Char) (m : Map T),
      mapParse cell input = ParseResult.ok rest m →
      1 ≤ m.row_count ∧ 1 ≤ m.col_count :=
  ⟨mapParse_nil_err cell hnil,
   fun input rest m h =>
     ⟨(mapParse_ok_wrap cell input rest m h).2.1,
      (mapParse_ok_wrap cell input rest m h).2.2⟩⟩

theorem claim_c9_witness : mapParse charCell [] = ParseResult.err :=
  (claim_c9 charCell (Or.inl rfl)).1

/-- C10: a default-constructed map behaves as an empty grid: both counts
are 0, `is_inside` is false everywhere and `get` is `None` everywhere. -/
theorem claim_c10 (T : Type) (p : IVec2) :
    (Map.defaultMap T).row_count = 0 ∧ (Map.defaultMap T).col_count = 0 ∧
    (Map.defaultMap T).is_inside p = false ∧
    (Map.defaultMap T).get p = none := by
  refine ⟨rfl, rfl, ?_, rfl⟩
  simp [Map.is_inside, Map.defaultMap]
